import Mathlib

/-!
Shallow embedding of the fine-accrual ("reconciliation") logic of the
LibSoma library-management service, `app/routers/fines.py`.

Timestamps are modelled as integers (seconds); Python's
`(current_date - loan_date).days` is floor division of the difference by
86400 (a `timedelta` normalises with `0 <= seconds < 86400`), i.e. `Int.fdiv`.
Fine amounts are integers: the code computes `100 + overdue_days * 10` in
exact Python integer arithmetic before storing it in a decimal column.

The two database tables touched by the pass (`loans`, `fines`) are modelled
as lists of records in storage order; a fresh-id counter stands for the
serial primary key of `fines`.
-/

namespace LibSoma

/-- Constant `INITIAL_FINE = 100` (fines.py line 146). -/
def INITIAL_FINE : Int := 100

/-- Constant `DAILY_FINE = 10` (fines.py line 147). -/
def DAILY_FINE : Int := 10

/-- Constant `GRACE_PERIOD_DAYS = 7` (fines.py line 148). -/
def GRACE_PERIOD_DAYS : Int := 7

/-- Seconds per day, used to turn a timestamp difference into whole days. -/
def SECONDS_PER_DAY : Int := 86400

/-- A row of the `loans` table (the columns the pass reads). -/
structure Loan where
  id : Nat
  user_id : Nat
  book_id : Nat
  loan_date : Int
  returned : Bool
deriving Repr, DecidableEq

/-- A row of the `fines` table. -/
structure Fine where
  id : Nat
  user_id : Nat
  loan_id : Nat
  amount : Int
  description : String
  fine_date : Int
  paid : Bool
deriving Repr, DecidableEq

/-- The database state seen by the fines router: the two tables, plus the
next value of the serial primary key of `fines`. -/
structure DB where
  loans : List Loan
  fines : List Fine
  nextFineId : Nat
deriving Repr, DecidableEq

/-- Python `(current_date - loan_date).days`: whole elapsed days, truncating toward
minus infinity exactly as Python's `timedelta.days` does. -/
def elapsedDays (now loanDate : Int) : Int :=
  (now - loanDate).fdiv SECONDS_PER_DAY

/-- The computation `overdue_days = (current_date - loan_date).days - GRACE_PERIOD_DAYS`
(fines.py line 171). -/
def overdueDays (now loanDate : Int) : Int :=
  elapsedDays now loanDate - GRACE_PERIOD_DAYS

/-- The computation `total_fine_amount = INITIAL_FINE + (overdue_days * DAILY_FINE)`
(fines.py line 180). -/
def totalFineAmount (d : Int) : Int :=
  INITIAL_FINE + d * DAILY_FINE

/-- The templated description string written by the pass (fines.py line 181). -/
def fineDescription (d : Int) : String :=
  "Multa por exceso de días (" ++ toString d ++ " días excedidos)"

/-- All fine rows of one loan, in storage order. -/
def finesOfLoan (fines : List Fine) (loanId : Nat) : List Fine :=
  fines.filter fun f => f.loan_id == loanId

/-- The unpaid fines of one loan, in storage order (the rows the `SELECT`
of fines.py lines 174-177 ranges over). -/
def unpaidFinesOf (fines : List Fine) (loanId : Nat) : List Fine :=
  fines.filter fun f => f.loan_id == loanId && !f.paid

/-- One step of scanning for the row of maximal `fine_date`: keep the current
candidate unless a strictly later row appears (so among rows tying on
`fine_date`, the first-scanned one is kept). -/
def pickLatest : Option Fine → Fine → Option Fine
  | none, f => some f
  | some g, f => if g.fine_date < f.fine_date then some f else some g

/-- The query `SELECT * FROM fines WHERE loan_id = %s AND paid = FALSE
ORDER BY fine_date DESC LIMIT 1` (fines.py lines 174-177).

The `WHERE` clause keeps the unpaid fines of the loan in storage order; the
`ORDER BY fine_date DESC LIMIT 1` picks a row of maximal `fine_date`. The SQL
has no secondary sort key, so the choice among rows tying on `fine_date` is
not specified by the query; the model resolves such a tie to the first-stored
row, which a stable scan produces. -/
def latestUnpaidFine (fines : List Fine) (loanId : Nat) : Option Fine :=
  (unpaidFinesOf fines loanId).foldl pickLatest none

/-- The statement `UPDATE fines SET amount = %s, description = %s, fine_date = %s
WHERE id = %s` (fines.py lines 185-189). -/
def updateFineRow (fines : List Fine) (fid : Nat) (amount : Int)
    (desc : String) (now : Int) : List Fine :=
  fines.map fun g =>
    if g.id == fid then
      { g with amount := amount, description := desc, fine_date := now }
    else g

/-- The body of the per-loan iteration of the pass (fines.py lines 165-195):
if the loan is more than `GRACE_PERIOD_DAYS` old, recompute its fine and
either update the latest unpaid fine row in place or insert a fresh row with
`paid = false` and `fine_date = current_date`. -/
def processLoan (now : Int) (db : DB) (loan : Loan) : DB :=
  let d := overdueDays now loan.loan_date
  if 0 < d then
    let amount := totalFineAmount d
    let desc := fineDescription d
    match latestUnpaidFine db.fines loan.id with
    | some f =>
        { db with fines := updateFineRow db.fines f.id amount desc now }
    | none =>
        { db with
            fines := db.fines ++
              [⟨db.nextFineId, loan.user_id, loan.id, amount, desc, now, false⟩],
            nextFineId := db.nextFineId + 1 }
  else db

/-- The query `SELECT * FROM loans WHERE returned = FALSE` (fines.py line 162). -/
def openLoans (db : DB) : List Loan :=
  db.loans.filter fun l => !l.returned

/-- The whole accrual pass of `list_fines` (fines.py lines 159-197): one
`current_date` snapshot, one scan of the unreturned loans, and the per-loan
upsert, all against the same connection. -/
def reconcile (db : DB) (now : Int) : DB :=
  (openLoans db).foldl (processLoan now) db

/-- The insert `INSERT INTO fines ... VALUES (..., CURRENT_TIMESTAMP, FALSE)` of
the `create_fine` endpoint (fines.py lines 34-40). -/
def createFine (db : DB) (userId loanId : Nat) (amount : Int)
    (desc : String) (now : Int) : DB :=
  { db with
      fines := db.fines ++ [⟨db.nextFineId, userId, loanId, amount, desc, now, false⟩],
      nextFineId := db.nextFineId + 1 }

/-- An HTTP error raised by a router (`HTTPException`). -/
structure HTTPError where
  status : Nat
  detail : String
deriving Repr, DecidableEq

/-- The query `SELECT * FROM fines LIMIT %s OFFSET %s` with
`offset = (page - 1) * per_page` (fines.py lines 158, 200-201). -/
def finesPage (fines : List Fine) (page perPage : Nat) : List Fine :=
  (fines.drop ((page - 1) * perPage)).take perPage

/-- The `list_fines` endpoint (fines.py lines 151-215): run the accrual pass,
commit (line 197), then read one page of fines; a 404 is raised when the page
is empty (lines 204-205). The first component is the database state left
committed by the call — the commit precedes the paginated read, so it is
`reconcile db now` in the error branch too. -/
def list_fines (db : DB) (now : Int) (page perPage : Nat) :
    DB × Except HTTPError (List Fine) :=
  let db' := reconcile db now
  let rows := finesPage db'.fines page perPage
  if rows.isEmpty then (db', Except.error ⟨404, "No fines found"⟩)
  else (db', Except.ok rows)

/-- Well-formedness of a database state: primary keys of `loans` and `fines`
are pairwise distinct and the serial counter is ahead of every stored fine id. -/
structure Wf (db : DB) : Prop where
  loanIdsNodup : (db.loans.map Loan.id).Nodup
  fineIdsNodup : (db.fines.map Fine.id).Nodup
  fineIdsLt : ∀ f ∈ db.fines, f.id < db.nextFineId

/-- All stored fine dates are at or before `t` (every state the application
itself produces satisfies this for the `utcnow` of a later call, since both
endpoints stamp rows with the current time). -/
def DatesLe (db : DB) (t : Int) : Prop :=
  ∀ f ∈ db.fines, f.fine_date ≤ t

/-- The row written into `fines` when the per-loan body takes the insert
branch. -/
def newFineRow (db : DB) (l : Loan) (now : Int) : Fine :=
  ⟨db.nextFineId, l.user_id, l.id,
    totalFineAmount (overdueDays now l.loan_date),
    fineDescription (overdueDays now l.loan_date), now, false⟩

/-- The per-loan postcondition of a pass run at `now`: if the loan is overdue,
the scan of its unpaid fines finds a row carrying exactly the recomputed
amount, description and date. -/
def LoanReconciled (now : Int) (db : DB) (l : Loan) : Prop :=
  0 < overdueDays now l.loan_date →
    ∃ f, latestUnpaidFine db.fines l.id = some f ∧
      f.loan_id = l.id ∧ f.paid = false ∧
      f.amount = totalFineAmount (overdueDays now l.loan_date) ∧
      f.description = fineDescription (overdueDays now l.loan_date) ∧
      f.fine_date = now

/-! ### The pass as a sequence of SQL statements in one transaction

`list_fines` runs on a fresh psycopg2 connection with autocommit off: every
statement of the pass joins one transaction, and `conn.commit()` (line 197)
is the only point at which the accumulated writes become durable. An
exception thrown by any earlier statement propagates out of the handler and
the uncommitted transaction is rolled back by the database, leaving the
durable state untouched. The statement list below makes that structure
explicit so the commit placement can be checked. -/

/-- One SQL statement issued by the accrual pass. -/
inductive Stmt where
  | selectLoans : Stmt
  | selectFines : Nat → Stmt
  | writeFine : Loan → Stmt
  | commit : Stmt
deriving Repr, DecidableEq

/-- Effect of a statement on the in-transaction (pending) state. Reads leave
it unchanged; the per-loan write performs the upsert; `commit` itself does not
alter the pending state (it promotes it to durable in `runTx`). -/
def stmtEffect (now : Int) (db : DB) : Stmt → DB
  | Stmt.writeFine l => processLoan now db l
  | _ => db

/-- The statements issued before the commit: the loan scan (line 162), then,
for each unreturned loan past the grace period, the latest-unpaid-fine
`SELECT` and the `UPDATE`-or-`INSERT` (lines 174-195). -/
def passBody (db : DB) (now : Int) : List Stmt :=
  Stmt.selectLoans ::
    ((openLoans db).filter fun l => decide (0 < overdueDays now l.loan_date)).flatMap
      fun l => [Stmt.selectFines l.id, Stmt.writeFine l]

/-- The full statement sequence of one pass: the body, then the single
`conn.commit()` of fines.py line 197. -/
def passStmts (db : DB) (now : Int) : List Stmt :=
  passBody db now ++ [Stmt.commit]

/-- Run a statement sequence inside one transaction. `committed` is the
durable state, `pending` the in-transaction view; `failAt = some k` makes the
k-th statement raise. Only `commit` copies pending into durable; a failure
returns the durable state as it stands together with the error. -/
def runTx (now : Int) (failAt : Option Nat) :
    List Stmt → Nat → DB → DB → DB × Option String
  | [], _, committed, _ => (committed, none)
  | s :: rest, k, committed, pending =>
      if failAt = some k then (committed, some "LedgerError")
      else
        match s with
        | Stmt.commit => runTx now failAt rest (k + 1) pending pending
        | _ => runTx now failAt rest (k + 1) committed (stmtEffect now pending s)

/-- One accrual pass run as a transaction, with an optional injected failure. -/
def reconcileTx (db : DB) (now : Int) (failAt : Option Nat) : DB × Option String :=
  runTx now failAt (passStmts db now) 0 db db

/-! ### Concrete states used to instantiate the theorems -/

/-- An unreturned loan taken at time 0 (spec §8 example: `loan_date = now − 10
days` once `now = 10` days). -/
def exLoan : Loan := ⟨1, 7, 3, 0, false⟩

/-- A ledger with the single open loan and no fines yet. -/
def exDB : DB := ⟨[exLoan], [], 1⟩

/-- Ten days after `exLoan.loan_date`: 3 days past the 7-day grace period. -/
def exNow : Int := 10 * 86400

/-- Twelve days after `exLoan.loan_date`: 5 days past the grace period. -/
def exNow2 : Int := 12 * 86400

/-- Five days after `exLoan.loan_date`: still inside the grace period. -/
def graceNow : Int := 5 * 86400

/-- The open loan together with an already satisfied (paid) fine row. -/
def paidDB : DB := ⟨[exLoan], [⟨1, 7, 1, 130, "old", 5, true⟩], 2⟩

/-- The open loan together with an unpaid fine row entered earlier. -/
def grDB : DB := ⟨[exLoan], [⟨1, 7, 1, 77, "y", 5, false⟩], 2⟩

/-- The open loan of the tie scenario below. -/
def tieLoan : Loan := ⟨1, 1, 1, 0, false⟩

/-- The first-stored of two unpaid fines tying on `fine_date`. -/
def tieF1 : Fine := ⟨1, 1, 1, 50, "a", 5, false⟩

/-- The higher-id of the two tying unpaid fines. -/
def tieF2 : Fine := ⟨2, 1, 1, 60, "b", 5, false⟩

/-- Two unpaid fines for the same loan tying on `fine_date` (ids 1 and 2):
the state that separates the claimed highest-id tie-break from the code. -/
def tieDB : DB := ⟨[tieLoan], [tieF1, tieF2], 3⟩

/-! ### Generic list helpers -/

theorem map_eq_self_of {α : Type} {φ : α → α} :
    ∀ {xs : List α}, (∀ x ∈ xs, φ x = x) → xs.map φ = xs
  | [], _ => rfl
  | x :: xs, h => by
      simp only [List.map_cons, h x (List.mem_cons_self x xs),
        map_eq_self_of fun y hy => h y (List.mem_cons_of_mem x hy)]

theorem filter_map_pres {α : Type} {p : α → Bool} {φ : α → α} :
    ∀ {xs : List α}, (∀ x ∈ xs, p (φ x) = p x) →
      (∀ x ∈ xs, p x = true → φ x = x) →
      (xs.map φ).filter p = xs.filter p
  | [], _, _ => rfl
  | x :: xs, h1, h2 => by
      have htail : (xs.map φ).filter p = xs.filter p :=
        filter_map_pres (fun y hy => h1 y (List.mem_cons_of_mem x hy))
          (fun y hy => h2 y (List.mem_cons_of_mem x hy))
      by_cases hp : p x = true
      · have hφ : φ x = x := h2 x (List.mem_cons_self x xs) hp
        simp [List.filter_cons, hφ, hp, htail]
      · have hp' : p x = false := by
          cases hpx : p x with
          | false => rfl
          | true => exact absurd hpx hp
        have hφp : p (φ x) = false := by
          rw [h1 x (List.mem_cons_self x xs), hp']
        simp [List.filter_cons, hp', hφp, htail]

theorem filter_map_comm {α : Type} {p : α → Bool} {φ : α → α} :
    ∀ {xs : List α}, (∀ x ∈ xs, p (φ x) = p x) →
      (xs.map φ).filter p = (xs.filter p).map φ
  | [], _ => rfl
  | x :: xs, h1 => by
      have htail : (xs.map φ).filter p = (xs.filter p).map φ :=
        filter_map_comm fun y hy => h1 y (List.mem_cons_of_mem x hy)
      cases hp : p x with
      | true =>
          have hφp : p (φ x) = true := by
            rw [h1 x (List.mem_cons_self x xs), hp]
          simp [List.filter_cons, hp, hφp, htail]
      | false =>
          have hφp : p (φ x) = false := by
            rw [h1 x (List.mem_cons_self x xs), hp]
          simp [List.filter_cons, hp, hφp, htail]

/-! ### Properties of the latest-unpaid-fine scan -/

theorem foldl_pickLatest_acc : ∀ {xs : List Fine} {acc : Option Fine} {f : Fine},
    xs.foldl pickLatest acc = some f → acc = some f ∨ f ∈ xs
  | [], _, _, h => Or.inl h
  | x :: xs, acc, f, h => by
      rcases foldl_pickLatest_acc
        (show xs.foldl pickLatest (pickLatest acc x) = some f from h) with hstep | hmem
      · rcases acc with _ | g
        · exact Or.inr (by simp [pickLatest] at hstep; simp [hstep])
        · simp only [pickLatest] at hstep
          by_cases hlt : g.fine_date < x.fine_date
          · rw [if_pos hlt] at hstep
            exact Or.inr (by simp at hstep; simp [hstep])
          · rw [if_neg hlt] at hstep
            exact Or.inl hstep
      · exact Or.inr (List.mem_cons_of_mem x hmem)

theorem foldl_pickLatest_mem {xs : List Fine} {f : Fine}
    (h : xs.foldl pickLatest none = some f) : f ∈ xs := by
  rcases foldl_pickLatest_acc h with h' | h'
  · exact absurd h' (by simp)
  · exact h'

theorem foldl_pickLatest_isSome : ∀ (xs : List Fine) (g : Fine),
    (xs.foldl pickLatest (some g)).isSome = true
  | [], _ => rfl
  | x :: xs, g => by
      show (xs.foldl pickLatest (pickLatest (some g) x)).isSome = true
      simp only [pickLatest]
      by_cases hlt : g.fine_date < x.fine_date
      · rw [if_pos hlt]; exact foldl_pickLatest_isSome xs x
      · rw [if_neg hlt]; exact foldl_pickLatest_isSome xs g

theorem foldl_pickLatest_none_iff {xs : List Fine} :
    xs.foldl pickLatest none = none ↔ xs = [] := by
  cases xs with
  | nil => simp
  | cons x xs =>
      constructor
      · intro h
        have := foldl_pickLatest_isSome xs x
        rw [show xs.foldl pickLatest (some x) = (x :: xs).foldl pickLatest none from rfl,
          h] at this
        simp at this
      · intro h; exact absurd h (by simp)

theorem foldl_pickLatest_acc_le : ∀ {xs : List Fine} {y f : Fine},
    xs.foldl pickLatest (some y) = some f → y.fine_date ≤ f.fine_date
  | [], y, f, h => by simp at h; rw [h]
  | x :: xs, y, f, h => by
      show y.fine_date ≤ f.fine_date
      have hstep : xs.foldl pickLatest (pickLatest (some y) x) = some f := h
      simp only [pickLatest] at hstep
      by_cases hlt : y.fine_date < x.fine_date
      · rw [if_pos hlt] at hstep
        exact le_trans (le_of_lt hlt) (foldl_pickLatest_acc_le hstep)
      · rw [if_neg hlt] at hstep
        exact foldl_pickLatest_acc_le hstep

theorem foldl_pickLatest_le : ∀ {xs : List Fine} {acc : Option Fine} {f : Fine},
    xs.foldl pickLatest acc = some f → ∀ g ∈ xs, g.fine_date ≤ f.fine_date
  | [], _, _, _, g, hg => absurd hg (by simp)
  | x :: xs, acc, f, h, g, hg => by
      rcases List.mem_cons.mp hg with rfl | hg'
      · have hstep : xs.foldl pickLatest (pickLatest acc g) = some f := h
        have hx : ∃ z, pickLatest acc g = some z ∧ g.fine_date ≤ z.fine_date := by
          rcases acc with _ | b
          · exact ⟨g, rfl, le_refl _⟩
          · simp only [pickLatest]
            by_cases hlt : b.fine_date < g.fine_date
            · rw [if_pos hlt]; exact ⟨g, rfl, le_refl _⟩
            · rw [if_neg hlt]; exact ⟨b, rfl, le_of_not_lt hlt⟩
        rcases hx with ⟨z, hz, hgz⟩
        rw [hz] at hstep
        exact le_trans hgz (foldl_pickLatest_acc_le hstep)
      · exact foldl_pickLatest_le
          (show xs.foldl pickLatest (pickLatest acc x) = some f from h) g hg'

theorem foldl_pickLatest_const {f : Fine} : ∀ {xs : List Fine},
    (∀ g ∈ xs, g.fine_date ≤ f.fine_date) → xs.foldl pickLatest (some f) = some f
  | [], _ => rfl
  | x :: xs, h => by
      show xs.foldl pickLatest (pickLatest (some f) x) = some f
      have hx : ¬ f.fine_date < x.fine_date :=
        not_lt_of_le (h x (List.mem_cons_self x xs))
      simp only [pickLatest]
      rw [if_neg hx]
      exact foldl_pickLatest_const fun g hg => h g (List.mem_cons_of_mem x hg)

/-! ### Characterisation of `latestUnpaidFine` -/

theorem mem_unpaidFinesOf {fines : List Fine} {L : Nat} {f : Fine} :
    f ∈ unpaidFinesOf fines L ↔ f ∈ fines ∧ f.loan_id = L ∧ f.paid = false := by
  simp [unpaidFinesOf, List.mem_filter, and_assoc]

theorem unpaidFinesOf_eq_filter {fines : List Fine} {L : Nat} :
    unpaidFinesOf fines L = (finesOfLoan fines L).filter fun f => !f.paid := by
  induction fines with
  | nil => rfl
  | cons f fs ih =>
      by_cases hL : (f.loan_id == L) = true
      · by_cases hp : f.paid
        · simp [unpaidFinesOf, finesOfLoan, List.filter_cons, hL, hp] at ih ⊢
          exact ih
        · simp [unpaidFinesOf, finesOfLoan, List.filter_cons, hL, hp] at ih ⊢
          exact ih
      · have hL' : (f.loan_id == L) = false := by
          cases hx : (f.loan_id == L) with
          | false => rfl
          | true => exact absurd hx hL
        simp [unpaidFinesOf, finesOfLoan, List.filter_cons, hL'] at ih ⊢
        exact ih

theorem latestUnpaidFine_congr {fines₁ fines₂ : List Fine} {L : Nat}
    (h : finesOfLoan fines₁ L = finesOfLoan fines₂ L) :
    latestUnpaidFine fines₁ L = latestUnpaidFine fines₂ L := by
  unfold latestUnpaidFine
  rw [unpaidFinesOf_eq_filter, unpaidFinesOf_eq_filter, h]

theorem latestUnpaidFine_mem {fines : List Fine} {L : Nat} {f : Fine}
    (h : latestUnpaidFine fines L = some f) :
    f ∈ fines ∧ f.loan_id = L ∧ f.paid = false :=
  mem_unpaidFinesOf.mp (foldl_pickLatest_mem h)

theorem latestUnpaidFine_none_iff {fines : List Fine} {L : Nat} :
    latestUnpaidFine fines L = none ↔ unpaidFinesOf fines L = [] :=
  foldl_pickLatest_none_iff

theorem latestUnpaidFine_maxdate {fines : List Fine} {L : Nat} {f : Fine}
    (h : latestUnpaidFine fines L = some f) :
    ∀ g ∈ fines, g.loan_id = L → g.paid = false → g.fine_date ≤ f.fine_date := by
  intro g hg hgl hgp
  exact foldl_pickLatest_le h g (mem_unpaidFinesOf.mpr ⟨hg, hgl, hgp⟩)

/-! ### Basic facts about `processLoan` -/

theorem processLoan_loans (now : Int) (db : DB) (l : Loan) :
    (processLoan now db l).loans = db.loans := by
  unfold processLoan
  by_cases hd : 0 < overdueDays now l.loan_date
  · rw [if_pos hd]
    cases latestUnpaidFine db.fines l.id <;> rfl
  · rw [if_neg hd]

theorem processLoan_not_overdue {now : Int} {db : DB} {l : Loan}
    (hd : ¬ 0 < overdueDays now l.loan_date) : processLoan now db l = db := by
  unfold processLoan
  rw [if_neg hd]

theorem processLoan_eq_update {now : Int} {db : DB} {l : Loan} {f : Fine}
    (hd : 0 < overdueDays now l.loan_date)
    (hsel : latestUnpaidFine db.fines l.id = some f) :
    processLoan now db l =
      { db with
          fines := updateFineRow db.fines f.id
            (totalFineAmount (overdueDays now l.loan_date))
            (fineDescription (overdueDays now l.loan_date)) now } := by
  unfold processLoan
  rw [if_pos hd, hsel]

theorem processLoan_eq_insert {now : Int} {db : DB} {l : Loan}
    (hd : 0 < overdueDays now l.loan_date)
    (hsel : latestUnpaidFine db.fines l.id = none) :
    processLoan now db l =
      { db with
          fines := db.fines ++ [newFineRow db l now],
          nextFineId := db.nextFineId + 1 } := by
  unfold processLoan
  rw [if_pos hd, hsel]
  rfl

theorem updateFineRow_map_id (fines : List Fine) (fid : Nat) (a : Int)
    (d : String) (t : Int) :
    (updateFineRow fines fid a d t).map Fine.id = fines.map Fine.id := by
  unfold updateFineRow
  rw [List.map_map]
  apply List.map_congr_left
  intro g _
  simp only [Function.comp_apply]
  split <;> rfl

theorem wf_congr {db db' : DB} (hw : Wf db) (hl : db'.loans = db.loans)
    (hn : db'.nextFineId = db.nextFineId)
    (hf : db'.fines.map Fine.id = db.fines.map Fine.id) : Wf db' := by
  refine ⟨?_, ?_, ?_⟩
  · rw [hl]; exact hw.loanIdsNodup
  · rw [hf]; exact hw.fineIdsNodup
  · intro g hg
    have hmem : g.id ∈ db'.fines.map Fine.id := List.mem_map_of_mem Fine.id hg
    rw [hf] at hmem
    rcases List.mem_map.mp hmem with ⟨g₀, hg₀, hid⟩
    rw [hn, ← hid]
    exact hw.fineIdsLt g₀ hg₀

theorem processLoan_wf {now : Int} {db : DB} {l : Loan} (hw : Wf db) :
    Wf (processLoan now db l) := by
  by_cases hd : 0 < overdueDays now l.loan_date
  · cases hsel : latestUnpaidFine db.fines l.id with
    | some f =>
        rw [processLoan_eq_update hd hsel]
        exact wf_congr hw rfl rfl (updateFineRow_map_id db.fines f.id _ _ _)
    | none =>
        rw [processLoan_eq_insert hd hsel]
        refine ⟨hw.loanIdsNodup, ?_, ?_⟩
        · show ((db.fines ++ [newFineRow db l now]).map Fine.id).Nodup
          rw [List.map_append, List.nodup_append]
          refine ⟨hw.fineIdsNodup, by simp, ?_⟩
          intro a ha
          simp only [newFineRow, List.map_cons, List.map_nil, List.mem_singleton]
          intro hb
          rcases List.mem_map.mp ha with ⟨g, hg, hgid⟩
          have := hw.fineIdsLt g hg
          omega
        · intro g hg
          rcases List.mem_append.mp hg with hg' | hg'
          · exact Nat.lt_succ_of_lt (hw.fineIdsLt g hg')
          · simp only [List.mem_singleton] at hg'
            rw [hg']
            exact Nat.lt_succ_self _
  · rw [processLoan_not_overdue hd]; exact hw

theorem processLoan_datesLe {now : Int} {db : DB} {l : Loan}
    (hdt : DatesLe db now) : DatesLe (processLoan now db l) now := by
  by_cases hd : 0 < overdueDays now l.loan_date
  · cases hsel : latestUnpaidFine db.fines l.id with
    | some f =>
        rw [processLoan_eq_update hd hsel]
        intro g hg
        rcases List.mem_map.mp hg with ⟨g₀, hg₀, hφ⟩
        by_cases h : (g₀.id == f.id) = true
        · rw [← hφ, if_pos h]
        · rw [← hφ, if_neg h]
          exact hdt g₀ hg₀
    | none =>
        rw [processLoan_eq_insert hd hsel]
        intro g hg
        rcases List.mem_append.mp hg with hg' | hg'
        · exact hdt g hg'
        · simp only [List.mem_singleton] at hg'
          rw [hg']
          exact le_refl now
  · rw [processLoan_not_overdue hd]; exact hdt

theorem processLoan_fines_update {now : Int} {db : DB} {l : Loan} {f : Fine}
    (hd : 0 < overdueDays now l.loan_date)
    (hsel : latestUnpaidFine db.fines l.id = some f) :
    (processLoan now db l).fines = updateFineRow db.fines f.id
      (totalFineAmount (overdueDays now l.loan_date))
      (fineDescription (overdueDays now l.loan_date)) now := by
  rw [processLoan_eq_update hd hsel]

theorem processLoan_next_update {now : Int} {db : DB} {l : Loan} {f : Fine}
    (hd : 0 < overdueDays now l.loan_date)
    (hsel : latestUnpaidFine db.fines l.id = some f) :
    (processLoan now db l).nextFineId = db.nextFineId := by
  rw [processLoan_eq_update hd hsel]

theorem processLoan_fines_insert {now : Int} {db : DB} {l : Loan}
    (hd : 0 < overdueDays now l.loan_date)
    (hsel : latestUnpaidFine db.fines l.id = none) :
    (processLoan now db l).fines = db.fines ++ [newFineRow db l now] := by
  rw [processLoan_eq_insert hd hsel]

theorem processLoan_next_insert {now : Int} {db : DB} {l : Loan}
    (hd : 0 < overdueDays now l.loan_date)
    (hsel : latestUnpaidFine db.fines l.id = none) :
    (processLoan now db l).nextFineId = db.nextFineId + 1 := by
  rw [processLoan_eq_insert hd hsel]

/-! ### Frame lemmas -/

theorem fine_eq_of_id_eq {fines : List Fine} (hn : (fines.map Fine.id).Nodup)
    {f g : Fine} (hf : f ∈ fines) (hg : g ∈ fines) (h : f.id = g.id) : f = g :=
  List.inj_on_of_nodup_map hn hf hg h

theorem updateFineRow_filter_pres {fines : List Fine} {fid : Nat} {a : Int}
    {d : String} {t : Int} {p : Fine → Bool}
    (hpres : ∀ g : Fine,
      p { g with amount := a, description := d, fine_date := t } = p g)
    (hfix : ∀ g ∈ fines, p g = true → g.id ≠ fid) :
    (updateFineRow fines fid a d t).filter p = fines.filter p := by
  unfold updateFineRow
  apply filter_map_pres
  · intro g _
    by_cases h : (g.id == fid) = true
    · rw [if_pos h]; exact hpres g
    · rw [if_neg h]
  · intro g hg hp
    simp only [beq_iff_eq]
    rw [if_neg (hfix g hg hp)]

theorem updateFineRow_filter_comm {fines : List Fine} {fid : Nat} {a : Int}
    {d : String} {t : Int} {p : Fine → Bool}
    (hpres : ∀ g : Fine,
      p { g with amount := a, description := d, fine_date := t } = p g) :
    (updateFineRow fines fid a d t).filter p =
      (fines.filter p).map fun g =>
        if g.id == fid then { g with amount := a, description := d, fine_date := t }
        else g := by
  unfold updateFineRow
  apply filter_map_comm
  intro g _
  by_cases h : (g.id == fid) = true
  · rw [if_pos h]; exact hpres g
  · rw [if_neg h]

theorem processLoan_finesOfLoan_ne {now : Int} {db : DB} {l : Loan} {L : Nat}
    (hw : Wf db) (hne : l.id ≠ L) :
    finesOfLoan (processLoan now db l).fines L = finesOfLoan db.fines L := by
  by_cases hd : 0 < overdueDays now l.loan_date
  · cases hsel : latestUnpaidFine db.fines l.id with
    | some f =>
        obtain ⟨hfmem, hfl, _⟩ := latestUnpaidFine_mem hsel
        rw [processLoan_fines_update hd hsel]
        apply updateFineRow_filter_pres
        · intro g; rfl
        · intro g hg hp hgid
          have hgf : g = f := fine_eq_of_id_eq hw.fineIdsNodup hg hfmem hgid
          rw [hgf] at hp
          exact hne (by rw [← hfl]; exact beq_iff_eq.mp hp)
    | none =>
        rw [processLoan_fines_insert hd hsel]
        unfold finesOfLoan
        rw [List.filter_append]
        have hnew : ([newFineRow db l now].filter fun f => f.loan_id == L) = [] := by
          simp [newFineRow, hne]
        rw [hnew, List.append_nil]
  · rw [processLoan_not_overdue hd]

/-! ### Fold lemmas over the loan scan -/

theorem foldl_processLoan_loans (now : Int) :
    ∀ (ls : List Loan) (db : DB), (ls.foldl (processLoan now) db).loans = db.loans
  | [], _ => rfl
  | l :: ls, db => by
      rw [List.foldl_cons, foldl_processLoan_loans now ls, processLoan_loans]

theorem foldl_processLoan_wf {now : Int} :
    ∀ (ls : List Loan) (db : DB), Wf db → Wf (ls.foldl (processLoan now) db)
  | [], _, h => h
  | l :: ls, db, h => foldl_processLoan_wf ls (processLoan now db l) (processLoan_wf h)

theorem foldl_processLoan_datesLe {now : Int} :
    ∀ (ls : List Loan) (db : DB), DatesLe db now →
      DatesLe (ls.foldl (processLoan now) db) now
  | [], _, h => h
  | l :: ls, db, h =>
      foldl_processLoan_datesLe ls (processLoan now db l) (processLoan_datesLe h)

theorem reconcile_loans (db : DB) (now : Int) :
    (reconcile db now).loans = db.loans :=
  foldl_processLoan_loans now (openLoans db) db

theorem reconcile_wf {db : DB} {now : Int} (hw : Wf db) : Wf (reconcile db now) :=
  foldl_processLoan_wf (openLoans db) db hw

theorem reconcile_datesLe {db : DB} {now : Int} (h : DatesLe db now) :
    DatesLe (reconcile db now) now :=
  foldl_processLoan_datesLe (openLoans db) db h

theorem foldl_finesOfLoan {now : Int} {L : Nat} :
    ∀ (ls : List Loan) (db : DB), Wf db →
      (∀ l' ∈ ls, l'.id = L → ¬ 0 < overdueDays now l'.loan_date) →
      finesOfLoan (ls.foldl (processLoan now) db).fines L = finesOfLoan db.fines L
  | [], _, _, _ => rfl
  | l :: ls, db, hw, hh => by
      rw [List.foldl_cons,
        foldl_finesOfLoan ls (processLoan now db l) (processLoan_wf hw)
          fun l' h' => hh l' (List.mem_cons_of_mem l h')]
      by_cases hid : l.id = L
      · rw [processLoan_not_overdue (hh l (List.mem_cons_self l ls) hid)]
      · exact processLoan_finesOfLoan_ne hw hid

/-! ### Stability of the latest-unpaid selection under a refresh

When the row the scan picked has its `amount`, `description` and `fine_date`
rewritten to the recomputed values (with the new `fine_date` at least as late
as every other candidate), the scan picks the refreshed row again. -/

theorem pickLatest_refresh {u v : List Fine} {f f' : Fine}
    (hv : ∀ g ∈ v, g.fine_date ≤ f'.fine_date)
    (hfd : f.fine_date ≤ f'.fine_date)
    (huid : ∀ g ∈ u, g.id ≠ f.id)
    (hvid : ∀ g ∈ v, g.id ≠ f.id)
    (hfold : (u ++ f :: v).foldl pickLatest none = some f) :
    (u ++ f' :: v).foldl pickLatest none = some f' := by
  rw [List.foldl_append] at hfold ⊢
  rw [List.foldl_cons] at hfold ⊢
  cases ha : u.foldl pickLatest none with
  | none =>
      show v.foldl pickLatest (pickLatest none f') = some f'
      exact foldl_pickLatest_const hv
  | some b =>
      have hbu : b ∈ u := by
        rcases foldl_pickLatest_acc ha with h' | h'
        · exact absurd h' (by simp)
        · exact h'
      by_cases hbf : b.fine_date < f.fine_date
      · show v.foldl pickLatest (pickLatest (some b) f') = some f'
        have : pickLatest (some b) f' = some f' := by
          simp only [pickLatest]
          rw [if_pos (lt_of_lt_of_le hbf hfd)]
        rw [this]
        exact foldl_pickLatest_const hv
      · exfalso
        have hstep : pickLatest (some b) f = some b := by
          simp only [pickLatest]
          rw [if_neg hbf]
        rw [ha, hstep] at hfold
        rcases foldl_pickLatest_acc hfold with h' | h'
        · have : b = f := by simpa using h'
          exact huid b hbu (by rw [this])
        · exact hvid f h' rfl

/-! ### The per-loan body establishes the reconciled shape -/

theorem processLoan_writes_row {now : Int} (db : DB) {l : Loan}
    (hd : 0 < overdueDays now l.loan_date) :
    ∃ f ∈ (processLoan now db l).fines,
      f.loan_id = l.id ∧ f.paid = false ∧
      f.amount = totalFineAmount (overdueDays now l.loan_date) ∧
      f.description = fineDescription (overdueDays now l.loan_date) ∧
      f.fine_date = now := by
  cases hsel : latestUnpaidFine db.fines l.id with
  | some f =>
      obtain ⟨hfmem, hfl, hfp⟩ := latestUnpaidFine_mem hsel
      rw [processLoan_fines_update hd hsel]
      refine ⟨{ f with
          amount := totalFineAmount (overdueDays now l.loan_date),
          description := fineDescription (overdueDays now l.loan_date),
          fine_date := now }, ?_, hfl, hfp, rfl, rfl, rfl⟩
      unfold updateFineRow
      exact List.mem_map.mpr ⟨f, hfmem, by simp⟩
  | none =>
      rw [processLoan_fines_insert hd hsel]
      exact ⟨newFineRow db l now, List.mem_append_right _ (List.mem_singleton.mpr rfl),
        rfl, rfl, rfl, rfl, rfl⟩

theorem unpaidFinesOf_append {fines₁ fines₂ : List Fine} {L : Nat} :
    unpaidFinesOf (fines₁ ++ fines₂) L =
      unpaidFinesOf fines₁ L ++ unpaidFinesOf fines₂ L :=
  List.filter_append _ _

theorem processLoan_latest_self {now : Int} {db : DB} {l : Loan}
    (hw : Wf db) (hdt : DatesLe db now)
    (hd : 0 < overdueDays now l.loan_date) :
    ∃ f, latestUnpaidFine (processLoan now db l).fines l.id = some f ∧
      f.loan_id = l.id ∧ f.paid = false ∧
      f.amount = totalFineAmount (overdueDays now l.loan_date) ∧
      f.description = fineDescription (overdueDays now l.loan_date) ∧
      f.fine_date = now := by
  cases hsel : latestUnpaidFine db.fines l.id with
  | none =>
      rw [processLoan_eq_insert hd hsel]
      refine ⟨newFineRow db l now, ?_, rfl, rfl, rfl, rfl, rfl⟩
      show latestUnpaidFine (db.fines ++ [newFineRow db l now]) l.id = _
      unfold latestUnpaidFine
      rw [unpaidFinesOf_append, latestUnpaidFine_none_iff.mp hsel]
      have hone : unpaidFinesOf [newFineRow db l now] l.id = [newFineRow db l now] := by
        simp [unpaidFinesOf, newFineRow]
      rw [List.nil_append, hone]
      rfl
  | some f =>
      obtain ⟨hfmem, hfl, hfp⟩ := latestUnpaidFine_mem hsel
      have hcand : f ∈ unpaidFinesOf db.fines l.id :=
        mem_unpaidFinesOf.mpr ⟨hfmem, hfl, hfp⟩
      obtain ⟨u, v, hdec⟩ := List.append_of_mem hcand
      have hsubl : List.Sublist ((unpaidFinesOf db.fines l.id).map Fine.id)
          (db.fines.map Fine.id) :=
        (List.filter_sublist db.fines).map Fine.id
      have hcnodup : ((u ++ f :: v).map Fine.id).Nodup := by
        rw [← hdec]
        exact List.Nodup.sublist hsubl hw.fineIdsNodup
      have huid : ∀ g ∈ u, g.id ≠ f.id := by
        intro g hg heq
        rw [List.map_append, List.nodup_append] at hcnodup
        exact hcnodup.2.2 (List.mem_map_of_mem Fine.id hg) (by rw [heq]; simp)
      have hvid : ∀ g ∈ v, g.id ≠ f.id := by
        intro g hg heq
        rw [List.map_append] at hcnodup
        have := (List.nodup_append.mp hcnodup).2.1
        rw [List.map_cons, List.nodup_cons] at this
        exact this.1 (by rw [← heq]; exact List.mem_map_of_mem Fine.id hg)
      set A := totalFineAmount (overdueDays now l.loan_date) with hA
      set D := fineDescription (overdueDays now l.loan_date) with hD
      set f' : Fine :=
        { f with amount := A, description := D, fine_date := now } with hf'
      set φ : Fine → Fine := fun g =>
        if g.id == f.id then { g with amount := A, description := D, fine_date := now }
        else g with hφ
      have hφf : φ f = f' := by
        show (if (f.id == f.id) = true then
          { f with amount := A, description := D, fine_date := now } else f) = f'
        rw [if_pos (beq_iff_eq.mpr rfl)]
      have hφu : ∀ g ∈ u, φ g = g := by
        intro g hg
        show (if (g.id == f.id) = true then
          { g with amount := A, description := D, fine_date := now } else g) = g
        rw [if_neg fun hb => huid g hg (beq_iff_eq.mp hb)]
      have hφv : ∀ g ∈ v, φ g = g := by
        intro g hg
        show (if (g.id == f.id) = true then
          { g with amount := A, description := D, fine_date := now } else g) = g
        rw [if_neg fun hb => hvid g hg (beq_iff_eq.mp hb)]
      refine ⟨f', ?_, hfl, hfp, rfl, rfl, rfl⟩
      rw [processLoan_fines_update hd hsel]
      have hcomm : unpaidFinesOf (updateFineRow db.fines f.id A D now) l.id =
          (unpaidFinesOf db.fines l.id).map φ := by
        unfold unpaidFinesOf updateFineRow
        apply filter_map_comm
        intro g _
        by_cases h : (g.id == f.id) = true
        · rw [if_pos h]
        · rw [if_neg h]
      have hmapdec : (unpaidFinesOf db.fines l.id).map φ = u ++ f' :: v := by
        rw [hdec, List.map_append, List.map_cons, map_eq_self_of hφu,
          map_eq_self_of hφv, hφf]
      show (unpaidFinesOf (updateFineRow db.fines f.id A D now) l.id).foldl
        pickLatest none = some f'
      rw [hcomm, hmapdec]
      apply pickLatest_refresh (f := f)
      · intro g hg
        have hgf : g ∈ db.fines := by
          have : g ∈ unpaidFinesOf db.fines l.id := by
            rw [hdec]
            exact List.mem_append_right u (List.mem_cons_of_mem f hg)
          exact (mem_unpaidFinesOf.mp this).1
        exact hdt g hgf
      · exact hdt f hfmem
      · exact huid
      · exact hvid
      · rw [← hdec]
        exact hsel

/-! ### The second pass is a no-op on a reconciled state -/

theorem processLoan_noop {now : Int} {db : DB} {l : Loan} {f : Fine}
    (hw : Wf db)
    (hsel : latestUnpaidFine db.fines l.id = some f)
    (ha : f.amount = totalFineAmount (overdueDays now l.loan_date))
    (hde : f.description = fineDescription (overdueDays now l.loan_date))
    (hft : f.fine_date = now) :
    processLoan now db l = db := by
  by_cases hd : 0 < overdueDays now l.loan_date
  · rw [processLoan_eq_update hd hsel]
    have heq : updateFineRow db.fines f.id
        (totalFineAmount (overdueDays now l.loan_date))
        (fineDescription (overdueDays now l.loan_date)) now = db.fines := by
      unfold updateFineRow
      apply map_eq_self_of
      intro g hg
      by_cases h : (g.id == f.id) = true
      · have hgf : g = f := fine_eq_of_id_eq hw.fineIdsNodup hg
          (latestUnpaidFine_mem hsel).1 (beq_iff_eq.mp h)
        rw [if_pos h, hgf, ← ha, ← hde, ← hft]
      · rw [if_neg h]
    rw [heq]
  · exact processLoan_not_overdue hd

theorem foldl_establishes {now : Int} :
    ∀ (ls : List Loan) (db : DB), Wf db → DatesLe db now →
      (ls.map Loan.id).Nodup →
      ∀ l ∈ ls, LoanReconciled now (ls.foldl (processLoan now) db) l
  | [], _, _, _, _, l, hl => absurd hl (by simp)
  | l₀ :: ls, db, hw, hdt, hnd, l, hl => by
      rw [List.foldl_cons]
      rcases List.mem_cons.mp hl with rfl | hl'
      · intro hd
        obtain ⟨f, hsel, hprops⟩ := processLoan_latest_self hw hdt hd
        have hids : ∀ l' ∈ ls, l'.id = l.id → ¬ 0 < overdueDays now l'.loan_date := by
          intro l' hl' heq
          exfalso
          rw [List.map_cons, List.nodup_cons] at hnd
          exact hnd.1 (by rw [← heq]; exact List.mem_map_of_mem Loan.id hl')
        have hframe := foldl_finesOfLoan ls (processLoan now db l)
          (processLoan_wf hw) hids
        exact ⟨f, (latestUnpaidFine_congr hframe).trans hsel, hprops⟩
      · exact foldl_establishes ls (processLoan now db l₀) (processLoan_wf hw)
          (processLoan_datesLe hdt)
          (by rw [List.map_cons, List.nodup_cons] at hnd; exact hnd.2) l hl'

theorem foldl_processLoan_noop {now : Int} :
    ∀ (ls : List Loan) (db : DB), Wf db →
      (∀ l ∈ ls, LoanReconciled now db l) →
      ls.foldl (processLoan now) db = db
  | [], _, _, _ => rfl
  | l :: ls, db, hw, hrec => by
      have hstep : processLoan now db l = db := by
        by_cases hd : 0 < overdueDays now l.loan_date
        · obtain ⟨f, hsel, _, _, ha, hde, hft⟩ := hrec l (List.mem_cons_self l ls) hd
          exact processLoan_noop hw hsel ha hde hft
        · exact processLoan_not_overdue hd
      rw [List.foldl_cons, hstep]
      exact foldl_processLoan_noop ls db hw fun l' h => hrec l' (List.mem_cons_of_mem l h)

/-! ### Facts about the open-loan scan -/

theorem mem_openLoans {db : DB} {l : Loan} :
    l ∈ openLoans db ↔ l ∈ db.loans ∧ l.returned = false := by
  simp [openLoans, List.mem_filter]

theorem openLoans_id_nodup {db : DB} (hw : Wf db) :
    ((openLoans db).map Loan.id).Nodup :=
  List.Nodup.sublist ((List.filter_sublist db.loans).map Loan.id) hw.loanIdsNodup

theorem openLoans_reconcile (db : DB) (now : Int) :
    openLoans (reconcile db now) = openLoans db := by
  unfold openLoans
  rw [reconcile_loans]

theorem reconcile_establishes {db : DB} {now : Int} (hw : Wf db)
    (hdt : DatesLe db now) :
    ∀ l ∈ openLoans db, LoanReconciled now (reconcile db now) l :=
  foldl_establishes (openLoans db) db hw hdt (openLoans_id_nodup hw)

theorem loan_eq_of_id_eq {loans : List Loan} (hn : (loans.map Loan.id).Nodup)
    {a b : Loan} (ha : a ∈ loans) (hb : b ∈ loans) (h : a.id = b.id) : a = b :=
  List.inj_on_of_nodup_map hn ha hb h

theorem mem_finesOfLoan {fines : List Fine} {L : Nat} {f : Fine} :
    f ∈ finesOfLoan fines L ↔ f ∈ fines ∧ f.loan_id = L := by
  simp [finesOfLoan, List.mem_filter]

/-- Splitting the pass at one open loan: the fold runs the earlier loans,
then this loan's body, then the later loans. -/
theorem reconcile_split {db : DB} {now : Int} {u v : List Loan} {l : Loan}
    (hdec : openLoans db = u ++ l :: v) :
    reconcile db now =
      v.foldl (processLoan now)
        (processLoan now (u.foldl (processLoan now) db) l) := by
  unfold reconcile
  rw [hdec, List.foldl_append, List.foldl_cons]

/-! ### Claim theorems -/

/-- C1. For every open loan that is `d > 0` days past the grace period, the
pass records for it a fine row with amount exactly
`INITIAL_FINE + d * DAILY_FINE` (defaults 100 and 10, grace 7), the templated
description, `fine_date = now` and `paid = false` — exact integer arithmetic,
no rounding. -/
theorem overdue_fine_amount_exact {db : DB} {now : Int} {l : Loan}
    (hw : Wf db) (hmem : l ∈ db.loans) (hret : l.returned = false)
    (hd : 0 < overdueDays now l.loan_date) :
    ∃ f ∈ (reconcile db now).fines,
      f.loan_id = l.id ∧ f.paid = false ∧
      f.amount = INITIAL_FINE + overdueDays now l.loan_date * DAILY_FINE ∧
      f.description = fineDescription (overdueDays now l.loan_date) ∧
      f.fine_date = now := by
  have hop : l ∈ openLoans db := mem_openLoans.mpr ⟨hmem, hret⟩
  obtain ⟨u, v, hdec⟩ := List.append_of_mem hop
  have hnd : ((u ++ l :: v).map Loan.id).Nodup := by
    rw [← hdec]; exact openLoans_id_nodup hw
  have hvne : ∀ l' ∈ v, l'.id = l.id → ¬ 0 < overdueDays now l'.loan_date := by
    intro l' hl' heq
    exfalso
    rw [List.map_append, List.nodup_append] at hnd
    have h2 := hnd.2.1
    rw [List.map_cons, List.nodup_cons] at h2
    exact h2.1 (by rw [← heq]; exact List.mem_map_of_mem Loan.id hl')
  have hwu : Wf (u.foldl (processLoan now) db) := foldl_processLoan_wf u db hw
  obtain ⟨r, hrmem, hrl, hrp, hra, hrd, hrt⟩ :=
    processLoan_writes_row (u.foldl (processLoan now) db) hd
  have hframe := foldl_finesOfLoan v
    (processLoan now (u.foldl (processLoan now) db) l) (processLoan_wf hwu) hvne
  have hr1 : r ∈ finesOfLoan
      (processLoan now (u.foldl (processLoan now) db) l).fines l.id :=
    mem_finesOfLoan.mpr ⟨hrmem, hrl⟩
  rw [← hframe] at hr1
  refine ⟨r, ?_, hrl, hrp, hra, hrd, hrt⟩
  rw [reconcile_split hdec]
  exact (mem_finesOfLoan.mp hr1).1

/-- C1 witness: the spec §8 scenario — loan 10 days old, grace 7, the pass
records amount `100 + 3·10 = 130`. -/
theorem overdue_fine_amount_exact_witness :
    ∃ f ∈ (reconcile exDB exNow).fines,
      f.loan_id = exLoan.id ∧ f.paid = false ∧
      f.amount = INITIAL_FINE + overdueDays exNow exLoan.loan_date * DAILY_FINE ∧
      f.description = fineDescription (overdueDays exNow exLoan.loan_date) ∧
      f.fine_date = exNow :=
  overdue_fine_amount_exact ⟨by decide, by decide, by decide⟩
    (by decide) (by decide) (by decide)

/-- C2. For an open loan still inside the grace period
(`overdueDays ≤ 0`), a pass neither creates nor updates any fine row of that
loan: the list of its fine rows is unchanged, field for field. -/
theorem grace_period_no_fine_change {db : DB} {now : Int} {l : Loan}
    (hw : Wf db) (hmem : l ∈ db.loans) (_hret : l.returned = false)
    (hd : overdueDays now l.loan_date ≤ 0) :
    finesOfLoan (reconcile db now).fines l.id = finesOfLoan db.fines l.id := by
  apply foldl_finesOfLoan (openLoans db) db hw
  intro l' hl' heq
  have hl'' : l' ∈ db.loans := (mem_openLoans.mp hl').1
  have hll : l' = l := loan_eq_of_id_eq hw.loanIdsNodup hl'' hmem heq
  rw [hll]
  exact not_lt_of_le hd

/-- C2 witness: five days into the loan (grace 7), the existing fine row of
the loan is untouched by the pass. -/
theorem grace_period_no_fine_change_witness :
    finesOfLoan (reconcile grDB graceNow).fines exLoan.id =
      finesOfLoan grDB.fines exLoan.id :=
  grace_period_no_fine_change ⟨by decide, by decide, by decide⟩
    (by decide) (by decide) (by decide)

/-- C4. Idempotence: two passes with the same `now` and no mutation in
between leave the fine ledger exactly as the first pass did. Holds for every
well-formed state whose stored fine dates do not lie in the future of `now` —
true of every state the application itself can produce, since both writers
stamp rows with the current time. -/
theorem reconcile_idempotent {db : DB} {now : Int}
    (hw : Wf db) (hdt : DatesLe db now) :
    reconcile (reconcile db now) now = reconcile db now := by
  have hrec := reconcile_establishes hw hdt
  show (openLoans (reconcile db now)).foldl (processLoan now) (reconcile db now) =
    reconcile db now
  rw [openLoans_reconcile]
  exact foldl_processLoan_noop (openLoans db) (reconcile db now)
    (reconcile_wf hw) hrec

/-- C4 witness: idempotence at the concrete overdue state. -/
theorem reconcile_idempotent_witness :
    reconcile (reconcile exDB exNow) exNow = reconcile exDB exNow :=
  reconcile_idempotent ⟨by decide, by decide, by decide⟩
    (by intro f hf; simp [exDB] at hf)

/-! ### The unpaid-fine count per loan -/

theorem unpaidFinesOf_updateFineRow {fines : List Fine} {fid : Nat} {a : Int}
    {d : String} {t : Int} {L : Nat} :
    unpaidFinesOf (updateFineRow fines fid a d t) L =
      (unpaidFinesOf fines L).map fun g =>
        if g.id == fid then { g with amount := a, description := d, fine_date := t }
        else g := by
  unfold unpaidFinesOf
  exact updateFineRow_filter_comm fun g => rfl

theorem unpaidCount_processLoan {now : Int} {db : DB} {l : Loan} {L : Nat} :
    (unpaidFinesOf (processLoan now db l).fines L).length ≤
      max (unpaidFinesOf db.fines L).length 1 := by
  by_cases hd : 0 < overdueDays now l.loan_date
  · cases hsel : latestUnpaidFine db.fines l.id with
    | some f =>
        rw [processLoan_fines_update hd hsel, unpaidFinesOf_updateFineRow,
          List.length_map]
        exact le_max_left _ _
    | none =>
        rw [processLoan_fines_insert hd hsel, unpaidFinesOf_append,
          List.length_append]
        by_cases hL : l.id = L
        · have hz : unpaidFinesOf db.fines L = [] := by
            rw [← hL]; exact latestUnpaidFine_none_iff.mp hsel
          rw [hz]
          have hlen : (unpaidFinesOf [newFineRow db l now] L).length ≤ 1 := by
            have hs : List.Sublist (unpaidFinesOf [newFineRow db l now] L)
                [newFineRow db l now] := List.filter_sublist _
            simpa using hs.length_le
          simp only [List.length_nil, Nat.zero_add]
          exact le_trans hlen (le_max_right _ _)
        · have hz : unpaidFinesOf [newFineRow db l now] L = [] := by
            simp [unpaidFinesOf, newFineRow, hL]
          rw [hz]
          simp only [List.length_nil, Nat.add_zero]
          exact le_max_left _ _
  · rw [processLoan_not_overdue hd]
    exact le_max_left _ _

theorem unpaidCount_foldl {now : Int} {L : Nat} :
    ∀ (ls : List Loan) (db : DB),
      (unpaidFinesOf (ls.foldl (processLoan now) db).fines L).length ≤
        max (unpaidFinesOf db.fines L).length 1
  | [], _ => le_max_left _ _
  | l :: ls, db => by
      rw [List.foldl_cons]
      refine le_trans (unpaidCount_foldl ls (processLoan now db l)) ?_
      have h1 : max (unpaidFinesOf (processLoan now db l).fines L).length 1 ≤
          max (max (unpaidFinesOf db.fines L).length 1) 1 :=
        max_le_max unpaidCount_processLoan (le_refl 1)
      rw [max_assoc, max_self] at h1
      exact h1

/-- C5. A pass preserves the at-most-one-unpaid-fine-per-loan invariant: if a
loan has at most one unpaid fine row before the pass, it has at most one
afterwards — the overdue branch updates the existing row in place, and a new
row is inserted only when the loan has no unpaid row at all. -/
theorem at_most_one_unpaid_fine_preserved {db : DB} {now : Int} {L : Nat}
    (h : (unpaidFinesOf db.fines L).length ≤ 1) :
    (unpaidFinesOf (reconcile db now).fines L).length ≤ 1 := by
  have h2 : (unpaidFinesOf (reconcile db now).fines L).length ≤
      max (unpaidFinesOf db.fines L).length 1 :=
    unpaidCount_foldl (openLoans db) db
  exact le_trans h2 (max_le h le_rfl)

/-- C5 witness: the loan of `grDB` has one unpaid fine; after the pass it
still has exactly at most one. -/
theorem at_most_one_unpaid_fine_preserved_witness :
    (unpaidFinesOf (reconcile grDB exNow).fines 1).length ≤ 1 :=
  at_most_one_unpaid_fine_preserved (by decide)

/-! ### Paid fines are never touched -/

theorem processLoan_paid_filter {now : Int} {db : DB} {l : Loan} (hw : Wf db) :
    (processLoan now db l).fines.filter (fun f => f.paid) =
      db.fines.filter (fun f => f.paid) := by
  by_cases hd : 0 < overdueDays now l.loan_date
  · cases hsel : latestUnpaidFine db.fines l.id with
    | some f =>
        obtain ⟨hfmem, _, hfp⟩ := latestUnpaidFine_mem hsel
        rw [processLoan_fines_update hd hsel]
        apply updateFineRow_filter_pres
        · intro g; rfl
        · intro g hg hp heq
          have hgf : g = f := fine_eq_of_id_eq hw.fineIdsNodup hg hfmem heq
          rw [hgf, hfp] at hp
          exact absurd hp (by simp)
    | none =>
        rw [processLoan_fines_insert hd hsel, List.filter_append]
        have hz : [newFineRow db l now].filter (fun f => f.paid) = [] := by
          simp [newFineRow]
        rw [hz, List.append_nil]
  · rw [processLoan_not_overdue hd]

theorem foldl_paid_filter {now : Int} :
    ∀ (ls : List Loan) (db : DB), Wf db →
      (ls.foldl (processLoan now) db).fines.filter (fun f => f.paid) =
        db.fines.filter (fun f => f.paid)
  | [], _, _ => rfl
  | l :: ls, db, hw => by
      rw [List.foldl_cons,
        foldl_paid_filter ls (processLoan now db l) (processLoan_wf hw),
        processLoan_paid_filter hw]

/-- C6. A fine row with `paid = true` is never modified by a pass: the list
of paid rows — every field included — is identical before and after, even
when the row's loan is still open and overdue. -/
theorem paid_fines_frozen {db : DB} {now : Int} (hw : Wf db) :
    (reconcile db now).fines.filter (fun f => f.paid) =
      db.fines.filter (fun f => f.paid) :=
  foldl_paid_filter (openLoans db) db hw

/-- C6 witness: the paid fine row of `paidDB` survives a pass untouched while
its overdue open loan gets a fresh unpaid row. -/
theorem paid_fines_frozen_witness :
    (reconcile paidDB exNow).fines.filter (fun f => f.paid) =
      paidDB.fines.filter (fun f => f.paid) :=
  paid_fines_frozen ⟨by decide, by decide, by decide⟩

/-! ### Monotonicity of the overdue-day count -/

theorem overdueDays_mono {t1 t2 ld : Int} (h : t1 ≤ t2) :
    overdueDays t1 ld ≤ overdueDays t2 ld := by
  unfold overdueDays elapsedDays
  have h1 : (t1 - ld).fdiv SECONDS_PER_DAY ≤ (t2 - ld).fdiv SECONDS_PER_DAY := by
    rw [Int.fdiv_eq_ediv _ (by decide : (0 : Int) ≤ SECONDS_PER_DAY),
      Int.fdiv_eq_ediv _ (by decide : (0 : Int) ≤ SECONDS_PER_DAY)]
    exact Int.ediv_le_ediv (by decide) (sub_le_sub_right h ld)
  omega

/-- C8. For a loan open and overdue at `t1` whose fine stays unpaid, a pass
at `t1` followed by one at `t2 ≥ t1` never decreases the recorded fine
amount: the latest unpaid fine of the loan after the second pass carries an
amount at least that after the first. -/
theorem fine_amount_monotone {db : DB} {t1 t2 : Int} {l : Loan}
    (hw : Wf db) (hdt : DatesLe db t1) (h12 : t1 ≤ t2)
    (hmem : l ∈ db.loans) (hret : l.returned = false)
    (hd : 0 < overdueDays t1 l.loan_date) :
    ∃ f1 f2,
      latestUnpaidFine (reconcile db t1).fines l.id = some f1 ∧
      latestUnpaidFine (reconcile (reconcile db t1) t2).fines l.id = some f2 ∧
      f1.amount ≤ f2.amount := by
  have hop : l ∈ openLoans db := mem_openLoans.mpr ⟨hmem, hret⟩
  obtain ⟨f1, hsel1, _, _, ha1, _, _⟩ := reconcile_establishes hw hdt l hop hd
  have hw1 : Wf (reconcile db t1) := reconcile_wf hw
  have hdt2 : DatesLe (reconcile db t1) t2 := fun g hg =>
    le_trans (reconcile_datesLe hdt g hg) h12
  have hmono : overdueDays t1 l.loan_date ≤ overdueDays t2 l.loan_date :=
    overdueDays_mono h12
  have hd2 : 0 < overdueDays t2 l.loan_date := lt_of_lt_of_le hd hmono
  have hop2 : l ∈ openLoans (reconcile db t1) := by
    rw [openLoans_reconcile]; exact hop
  obtain ⟨f2, hsel2, _, _, ha2, _, _⟩ := reconcile_establishes hw1 hdt2 l hop2 hd2
  refine ⟨f1, f2, hsel1, hsel2, ?_⟩
  rw [ha1, ha2]
  unfold totalFineAmount
  exact add_le_add_left (mul_le_mul_of_nonneg_right hmono (by decide)) _

/-- C8 witness: between day 10 and day 12 the amount moves from 130 to 150,
never downward. -/
theorem fine_amount_monotone_witness :
    ∃ f1 f2,
      latestUnpaidFine (reconcile exDB exNow).fines exLoan.id = some f1 ∧
      latestUnpaidFine (reconcile (reconcile exDB exNow) exNow2).fines exLoan.id
        = some f2 ∧
      f1.amount ≤ f2.amount :=
  fine_amount_monotone ⟨by decide, by decide, by decide⟩
    (by intro f hf; simp [exDB] at hf) (by decide) (by decide) (by decide)
    (by decide)

/-! ### Manually entered fines feed the same upsert path -/

theorem createFine_wf {db : DB} {uid lid : Nat} {amt : Int} {desc : String}
    {t : Int} (hw : Wf db) : Wf (createFine db uid lid amt desc t) := by
  refine ⟨hw.loanIdsNodup, ?_, ?_⟩
  · show ((db.fines ++ [(⟨db.nextFineId, uid, lid, amt, desc, t, false⟩ : Fine)]).map
      Fine.id).Nodup
    rw [List.map_append, List.nodup_append]
    refine ⟨hw.fineIdsNodup, by simp, ?_⟩
    intro a ha
    simp only [List.map_cons, List.map_nil, List.mem_singleton]
    intro hb
    rcases List.mem_map.mp ha with ⟨g, hg, hgid⟩
    have := hw.fineIdsLt g hg
    omega
  · intro g hg
    rcases List.mem_append.mp hg with hg' | hg'
    · exact Nat.lt_succ_of_lt (hw.fineIdsLt g hg')
    · simp only [List.mem_singleton] at hg'
      rw [hg']
      exact Nat.lt_succ_self _

/-- C9. The pass does not distinguish engine rows from manual ones: a fine
inserted through the create-fine endpoint for an overdue open loan that had
no unpaid fine becomes the loan's latest unpaid row, and the next pass
overwrites its amount, description and fine_date with the engine-computed
values (the row keeps its id and user, whatever `amt`, `desc`, `t` were). -/
theorem manual_fine_overwritten {db : DB} {now t : Int} {l : Loan}
    {uid : Nat} {amt : Int} {desc : String}
    (hw : Wf db) (hmem : l ∈ db.loans) (hret : l.returned = false)
    (hd : 0 < overdueDays now l.loan_date)
    (hnone : unpaidFinesOf db.fines l.id = []) :
    (⟨db.nextFineId, uid, l.id,
        totalFineAmount (overdueDays now l.loan_date),
        fineDescription (overdueDays now l.loan_date), now, false⟩ : Fine) ∈
      (reconcile (createFine db uid l.id amt desc t) now).fines := by
  have hw₁ : Wf (createFine db uid l.id amt desc t) := createFine_wf hw
  have hop : l ∈ openLoans (createFine db uid l.id amt desc t) :=
    mem_openLoans.mpr ⟨hmem, hret⟩
  obtain ⟨u, v, hdec⟩ := List.append_of_mem hop
  have hnd : ((u ++ l :: v).map Loan.id).Nodup := by
    rw [← hdec]; exact openLoans_id_nodup hw₁
  have hune : ∀ l' ∈ u, l'.id = l.id → ¬ 0 < overdueDays now l'.loan_date := by
    intro l' hl' heq
    exfalso
    rw [List.map_append, List.nodup_append] at hnd
    exact hnd.2.2 (List.mem_map_of_mem Loan.id hl') (by rw [heq]; simp)
  have hvne : ∀ l' ∈ v, l'.id = l.id → ¬ 0 < overdueDays now l'.loan_date := by
    intro l' hl' heq
    exfalso
    rw [List.map_append, List.nodup_append] at hnd
    have h2 := hnd.2.1
    rw [List.map_cons, List.nodup_cons] at h2
    exact h2.1 (by rw [← heq]; exact List.mem_map_of_mem Loan.id hl')
  have hm : unpaidFinesOf (createFine db uid l.id amt desc t).fines l.id =
      [⟨db.nextFineId, uid, l.id, amt, desc, t, false⟩] := by
    show unpaidFinesOf
      (db.fines ++ [⟨db.nextFineId, uid, l.id, amt, desc, t, false⟩]) l.id = _
    rw [unpaidFinesOf_append, hnone, List.nil_append]
    simp [unpaidFinesOf]
  have hsel₁ : latestUnpaidFine (createFine db uid l.id amt desc t).fines l.id =
      some ⟨db.nextFineId, uid, l.id, amt, desc, t, false⟩ := by
    unfold latestUnpaidFine
    rw [hm]
    rfl
  have hwu : Wf (u.foldl (processLoan now) (createFine db uid l.id amt desc t)) :=
    foldl_processLoan_wf u _ hw₁
  have hframeu := foldl_finesOfLoan u (createFine db uid l.id amt desc t) hw₁ hune
  have hselu : latestUnpaidFine
      (u.foldl (processLoan now) (createFine db uid l.id amt desc t)).fines l.id =
      some ⟨db.nextFineId, uid, l.id, amt, desc, t, false⟩ :=
    (latestUnpaidFine_congr hframeu).trans hsel₁
  obtain ⟨hmmem, _, _⟩ := latestUnpaidFine_mem hselu
  have hr : (⟨db.nextFineId, uid, l.id,
      totalFineAmount (overdueDays now l.loan_date),
      fineDescription (overdueDays now l.loan_date), now, false⟩ : Fine) ∈
      (processLoan now
        (u.foldl (processLoan now) (createFine db uid l.id amt desc t)) l).fines := by
    rw [processLoan_fines_update hd hselu]
    unfold updateFineRow
    exact List.mem_map.mpr ⟨_, hmmem, by simp⟩
  have hframev := foldl_finesOfLoan v
    (processLoan now (u.foldl (processLoan now) (createFine db uid l.id amt desc t)) l)
    (processLoan_wf hwu) hvne
  have hr1 : (⟨db.nextFineId, uid, l.id,
      totalFineAmount (overdueDays now l.loan_date),
      fineDescription (overdueDays now l.loan_date), now, false⟩ : Fine) ∈
      finesOfLoan (processLoan now
        (u.foldl (processLoan now) (createFine db uid l.id amt desc t)) l).fines
        l.id :=
    mem_finesOfLoan.mpr ⟨hr, rfl⟩
  rw [← hframev] at hr1
  rw [reconcile_split hdec]
  exact (mem_finesOfLoan.mp hr1).1

/-- C9 witness: a manual fine of 55 entered at day 3 for the overdue loan is
overwritten by the next pass to the engine amount 130 with the engine
description and `fine_date = now`. -/
theorem manual_fine_overwritten_witness :
    (⟨exDB.nextFineId, 9, exLoan.id,
        totalFineAmount (overdueDays exNow exLoan.loan_date),
        fineDescription (overdueDays exNow exLoan.loan_date), exNow, false⟩ : Fine) ∈
      (reconcile (createFine exDB 9 exLoan.id 55 "manual" (3 * 86400)) exNow).fines :=
  manual_fine_overwritten ⟨by decide, by decide, by decide⟩
    (by decide) (by decide) (by decide) (by decide)

/-! ### The upsert target among fines tying on `fine_date` -/

theorem nodup_decomp_ids {u v : List Fine} {f : Fine}
    (hn : ((u ++ f :: v).map Fine.id).Nodup) :
    (∀ g ∈ u, g.id ≠ f.id) ∧ (∀ g ∈ v, g.id ≠ f.id) := by
  constructor
  · intro g hg heq
    rw [List.map_append, List.nodup_append] at hn
    exact hn.2.2 (List.mem_map_of_mem Fine.id hg) (by rw [heq]; simp)
  · intro g hg heq
    rw [List.map_append] at hn
    have h2 := (List.nodup_append.mp hn).2.1
    rw [List.map_cons, List.nodup_cons] at h2
    exact h2.1 (by rw [← heq]; exact List.mem_map_of_mem Fine.id hg)

/-- C3 counterexample: in `tieDB` the loan's two unpaid fines tie on
`fine_date`; the claimed tie-break by highest id predicts the row with id 2
gets the recomputed amount 130 while id 1 keeps 50, but the pass updates the
row with id 1 and leaves id 2 unchanged. -/
theorem tie_break_highest_id_refuted :
    (reconcile tieDB exNow).fines.map (fun f => (f.id, f.amount)) =
      [(1, 130), (2, 60)] ∧
    ¬ (reconcile tieDB exNow).fines.map (fun f => (f.id, f.amount)) =
      [(1, 50), (2, 130)] := by
  constructor
  · decide
  · decide

/-- C3 (amended). For an overdue open loan's body iteration: if the loan has
unpaid fines, the row the `SELECT ... ORDER BY fine_date DESC LIMIT 1`
returns is an unpaid row of the loan with maximal `fine_date` (the tie among
equal dates is not specified by the SQL; the model takes the first-stored
such row), and exactly that row has its `amount`, `description` and
`fine_date` rewritten in place, with no insert; if the loan has no unpaid
fine, exactly one new row is appended with `paid = false` and
`fine_date = now`. -/
theorem upsert_latest_unpaid_amended {db : DB} {now : Int} {l : Loan}
    (hw : Wf db) (hd : 0 < overdueDays now l.loan_date) :
    (∀ f, latestUnpaidFine db.fines l.id = some f →
      f ∈ db.fines ∧ f.loan_id = l.id ∧ f.paid = false ∧
      (∀ g ∈ db.fines, g.loan_id = l.id → g.paid = false →
        g.fine_date ≤ f.fine_date) ∧
      ∃ u v, db.fines = u ++ f :: v ∧
        (processLoan now db l).fines =
          u ++ ({ f with
              amount := totalFineAmount (overdueDays now l.loan_date),
              description := fineDescription (overdueDays now l.loan_date),
              fine_date := now } : Fine) :: v ∧
        (processLoan now db l).nextFineId = db.nextFineId) ∧
    (latestUnpaidFine db.fines l.id = none →
      (processLoan now db l).fines = db.fines ++ [newFineRow db l now] ∧
      (processLoan now db l).nextFineId = db.nextFineId + 1) := by
  constructor
  · intro f hsel
    obtain ⟨hfmem, hfl, hfp⟩ := latestUnpaidFine_mem hsel
    refine ⟨hfmem, hfl, hfp, latestUnpaidFine_maxdate hsel, ?_⟩
    obtain ⟨u, v, hdec⟩ := List.append_of_mem hfmem
    have hnodup : ((u ++ f :: v).map Fine.id).Nodup := by
      rw [← hdec]; exact hw.fineIdsNodup
    obtain ⟨huid, hvid⟩ := nodup_decomp_ids hnodup
    refine ⟨u, v, hdec, ?_, processLoan_next_update hd hsel⟩
    rw [processLoan_fines_update hd hsel]
    unfold updateFineRow
    rw [hdec, List.map_append, List.map_cons]
    have hφu : ∀ g ∈ u,
        (if g.id == f.id then
          { g with
              amount := totalFineAmount (overdueDays now l.loan_date),
              description := fineDescription (overdueDays now l.loan_date),
              fine_date := now }
        else g) = g := by
      intro g hg
      rw [if_neg fun hb => huid g hg (beq_iff_eq.mp hb)]
    have hφv : ∀ g ∈ v,
        (if g.id == f.id then
          { g with
              amount := totalFineAmount (overdueDays now l.loan_date),
              description := fineDescription (overdueDays now l.loan_date),
              fine_date := now }
        else g) = g := by
      intro g hg
      rw [if_neg fun hb => hvid g hg (beq_iff_eq.mp hb)]
    rw [map_eq_self_of hφu, map_eq_self_of hφv,
      if_pos (beq_iff_eq.mpr (rfl : f.id = f.id))]
  · intro hsel
    exact ⟨processLoan_fines_insert hd hsel, processLoan_next_insert hd hsel⟩

/-- C3 (amended) witness: in the tie state, the selected row is the
first-stored one (id 1), updated in place between the untouched neighbours. -/
theorem upsert_latest_unpaid_amended_witness :
    (tieF1 ∈ tieDB.fines ∧ tieF1.loan_id = tieLoan.id ∧ tieF1.paid = false ∧
      (∀ g ∈ tieDB.fines, g.loan_id = tieLoan.id → g.paid = false →
        g.fine_date ≤ tieF1.fine_date) ∧
      ∃ u v, tieDB.fines = u ++ tieF1 :: v ∧
        (processLoan exNow tieDB tieLoan).fines =
          u ++ ({ tieF1 with
              amount := totalFineAmount (overdueDays exNow tieLoan.loan_date),
              description := fineDescription (overdueDays exNow tieLoan.loan_date),
              fine_date := exNow } : Fine) :: v ∧
        (processLoan exNow tieDB tieLoan).nextFineId = tieDB.nextFineId) :=
  (upsert_latest_unpaid_amended ⟨by decide, by decide, by decide⟩
    (by decide)).1 tieF1 (by decide)

/-- C10. When the paginated read after the pass returns no rows, `list_fines`
fails with 404 "No fines found", yet the committed state of the call is the
fully reconciled ledger: the accrual writes are not undone by the error. -/
theorem list_fines_404_keeps_writes {db : DB} {now : Int} {page perPage : Nat}
    (h : finesPage (reconcile db now).fines page perPage = []) :
    list_fines db now page perPage =
      (reconcile db now, Except.error ⟨404, "No fines found"⟩) := by
  show (if (finesPage (reconcile db now).fines page perPage).isEmpty then
      ((reconcile db now), (Except.error ⟨404, "No fines found"⟩ :
        Except HTTPError (List Fine)))
    else ((reconcile db now),
      Except.ok (finesPage (reconcile db now).fines page perPage))) = _
  rw [h]
  rfl

/-- C10 witness: page 5 of the concrete state is empty, the call returns the
404 error, and the pass's freshly inserted fine row is in the committed
state all the same. -/
theorem list_fines_404_keeps_writes_witness :
    list_fines exDB exNow 5 10 =
      (reconcile exDB exNow, Except.error ⟨404, "No fines found"⟩) ∧
    (reconcile exDB exNow).fines ≠ [] :=
  ⟨list_fines_404_keeps_writes (by decide), by decide⟩

/-! ### The transaction runs every statement before the single commit -/

theorem passBody_no_commit {db : DB} {now : Int} :
    ∀ s ∈ passBody db now, s ≠ Stmt.commit := by
  intro s hs
  unfold passBody at hs
  rcases List.mem_cons.mp hs with rfl | hs'
  · intro h; exact Stmt.noConfusion h
  · rcases List.mem_flatMap.mp hs' with ⟨l, _, hmem⟩
    simp only [List.mem_cons, List.mem_singleton, List.not_mem_nil,
      or_false] at hmem
    rcases hmem with rfl | rfl <;> intro h <;> exact Stmt.noConfusion h

theorem runTx_none {now : Int} :
    ∀ (pre : List Stmt) (k : Nat) (c p : DB),
      runTx now none (pre ++ [Stmt.commit]) k c p =
        (pre.foldl (stmtEffect now) p, none)
  | [], k, c, p => by
      show runTx now none [Stmt.commit] k c p = (p, none)
      unfold runTx
      rw [if_neg (by simp : ¬ (none : Option Nat) = some k)]
      rfl
  | s :: pre, k, c, p => by
      rw [List.cons_append]
      cases s with
      | commit => exact runTx_none pre (k + 1) p p
      | selectLoans => exact runTx_none pre (k + 1) c p
      | selectFines lid => exact runTx_none pre (k + 1) c p
      | writeFine l => exact runTx_none pre (k + 1) c (processLoan now p l)

theorem runTx_fail {now : Int} {j : Nat} :
    ∀ (pre : List Stmt) (k : Nat) (c p : DB),
      (∀ s ∈ pre, s ≠ Stmt.commit) → k ≤ j → j < k + pre.length →
      runTx now (some j) (pre ++ [Stmt.commit]) k c p =
        (c, some "LedgerError")
  | [], k, c, p, _, hle, hlt => by
      simp only [List.length_nil, Nat.add_zero] at hlt
      omega
  | s :: pre, k, c, p, hnc, hle, hlt => by
      rw [List.cons_append]
      have hle' : ¬ j = k → k + 1 ≤ j := by omega
      have hlt' : j < (k + 1) + pre.length := by
        simp only [List.length_cons] at hlt
        omega
      have hnc' : ∀ s' ∈ pre, s' ≠ Stmt.commit :=
        fun s' h => hnc s' (List.mem_cons_of_mem s h)
      by_cases hk : j = k
      · subst hk
        cases s with
        | commit =>
            show runTx now (some j) (Stmt.commit :: (pre ++ [Stmt.commit])) j c p = _
            unfold runTx
            rw [if_pos rfl]
        | selectLoans =>
            show runTx now (some j) (Stmt.selectLoans :: (pre ++ [Stmt.commit])) j c p = _
            unfold runTx
            rw [if_pos rfl]
        | selectFines lid =>
            show runTx now (some j)
              (Stmt.selectFines lid :: (pre ++ [Stmt.commit])) j c p = _
            unfold runTx
            rw [if_pos rfl]
        | writeFine l =>
            show runTx now (some j) (Stmt.writeFine l :: (pre ++ [Stmt.commit])) j c p = _
            unfold runTx
            rw [if_pos rfl]
      · have hne : ¬ (some j : Option Nat) = some k :=
          fun h => hk (Option.some.inj h)
        cases s with
        | commit => exact absurd rfl (hnc Stmt.commit (List.mem_cons_self _ _))
        | selectLoans =>
            show runTx now (some j) (Stmt.selectLoans :: (pre ++ [Stmt.commit])) k c p = _
            unfold runTx
            rw [if_neg hne]
            exact runTx_fail pre (k + 1) c p hnc' (hle' hk) hlt'
        | selectFines lid =>
            show runTx now (some j)
              (Stmt.selectFines lid :: (pre ++ [Stmt.commit])) k c p = _
            unfold runTx
            rw [if_neg hne]
            exact runTx_fail pre (k + 1) c p hnc' (hle' hk) hlt'
        | writeFine l =>
            show runTx now (some j) (Stmt.writeFine l :: (pre ++ [Stmt.commit])) k c p = _
            unfold runTx
            rw [if_neg hne]
            exact runTx_fail pre (k + 1) c (processLoan now p l) hnc' (hle' hk) hlt'

theorem foldl_stmt_flatMap {now : Int} :
    ∀ (ls : List Loan) (db : DB),
      ((ls.flatMap fun l => [Stmt.selectFines l.id, Stmt.writeFine l]).foldl
        (stmtEffect now) db) = ls.foldl (processLoan now) db
  | [], _ => rfl
  | l :: ls, db => by
      rw [List.flatMap_cons, List.cons_append, List.cons_append,
        List.nil_append, List.foldl_cons, List.foldl_cons]
      exact foldl_stmt_flatMap ls (processLoan now db l)

theorem foldl_processLoan_filter {now : Int} :
    ∀ (ls : List Loan) (db : DB),
      ((ls.filter fun l => decide (0 < overdueDays now l.loan_date)).foldl
        (processLoan now) db) = ls.foldl (processLoan now) db
  | [], _ => rfl
  | l :: ls, db => by
      rw [List.filter_cons, List.foldl_cons]
      by_cases hd : 0 < overdueDays now l.loan_date
      · rw [if_pos (by simpa using hd), List.foldl_cons]
        exact foldl_processLoan_filter ls (processLoan now db l)
      · rw [if_neg (by simpa using hd), processLoan_not_overdue hd]
        exact foldl_processLoan_filter ls db

/-- C7. One pass is one transaction against a single `now` snapshot: run
without failure, the sole commit — placed after the whole loan loop
(fines.py line 197) — makes exactly the state `reconcile db now` durable;
if any statement before the commit raises (loan read, fine read or fine
write), the durable state is still `db` — no incomplete write survives — and
the error propagates to the caller. -/
theorem reconcile_single_transaction (db : DB) (now : Int) :
    reconcileTx db now none = (reconcile db now, none) ∧
    ∀ j, j + 1 < (passStmts db now).length →
      reconcileTx db now (some j) = (db, some "LedgerError") := by
  constructor
  · show runTx now none (passBody db now ++ [Stmt.commit]) 0 db db = _
    rw [runTx_none (passBody db now) 0 db db]
    unfold passBody
    rw [List.foldl_cons]
    show ((((openLoans db).filter fun l =>
        decide (0 < overdueDays now l.loan_date)).flatMap
          fun l => [Stmt.selectFines l.id, Stmt.writeFine l]).foldl
            (stmtEffect now) db, none) = (reconcile db now, none)
    rw [foldl_stmt_flatMap, foldl_processLoan_filter]
    rfl
  · intro j hj
    show runTx now (some j) (passBody db now ++ [Stmt.commit]) 0 db db = _
    apply runTx_fail (passBody db now) 0 db db passBody_no_commit (by omega)
    have : (passStmts db now).length = (passBody db now).length + 1 := by
      unfold passStmts
      rw [List.length_append]
      rfl
    rw [this] at hj
    omega

/-- C7 witness: on the concrete state the failure-free run commits the
reconciled ledger, and a failure at statement 1 (the loan's fine `SELECT`)
leaves the durable state untouched with the error surfaced. -/
theorem reconcile_single_transaction_witness :
    reconcileTx exDB exNow none = (reconcile exDB exNow, none) ∧
    reconcileTx exDB exNow (some 1) = (exDB, some "LedgerError") :=
  ⟨(reconcile_single_transaction exDB exNow).1,
    (reconcile_single_transaction exDB exNow).2 1 (by decide)⟩

end LibSoma
